import Mathlib

/-!
Verification of the arithmetic-expression evaluator and query processor of
`utils/QueryProcessor.tsx`.

The evaluator (`evaluateExpression`) is a three-stage pipeline: a tokenizer
(single left-to-right scan with a unary-minus lookahead), a shunting-yard
conversion to postfix form, and a postfix (RPN) evaluation over an operand
stack.  Numbers are modelled by `ℚ`, idealizing IEEE-754 doubles: every value
the source manipulates in the verified scenarios is an exactly representable
small rational.  JavaScript exceptions are modelled by `Except EvalError`.

Loops of the source that consume more than one character per iteration are
modelled with an explicit fuel parameter so that every definition reduces
inside the kernel; the canonical fuel (input length + 1) is provably
sufficient (`tokenizeF_mono`), which captures the progress /
termination of the source loops.
-/

/-- The five `throw new Error(...)` sites of `evaluateExpression`, plus the
(unreachable) `default` case of the RPN operator switch. -/
inductive EvalError where
  | invalidCharacter (c : Char)
  | invalidNumber
  | mismatchedParentheses
  | divisionByZero
  | malformedExpression
  | unknownOperator (c : Char)
deriving DecidableEq

/-- The `Token` tagged union of the source: a number, an operator symbol, or a
parenthesis symbol. -/
inductive Token where
  | number (value : ℚ)
  | op (value : Char)
  | paren (value : Char)
deriving DecidableEq

/-- The character class `[0-9.]` used by the tokenizer's number scanning. -/
def isDigitDot (c : Char) : Bool := c.isDigit || c = '.'

/-- Numeric value of a decimal digit character. -/
def digitVal (c : Char) : ℕ := c.toNat - 48

/-- Value of a string of decimal digits, most significant first. -/
def digitsVal (l : List Char) : ℕ := l.foldl (fun a c => 10 * a + digitVal c) 0

/-- Value of the fractional digits after a decimal point. -/
def fracVal (l : List Char) : ℚ := (digitsVal l : ℚ) / (10 : ℚ) ^ l.length

/-- JavaScript `Number(s)` restricted to strings over `[0-9.]` (the only
strings the tokenizer feeds it, the optional leading `-` being handled at the
call site): `none` models `NaN`.  A run with two or more decimal points, or
consisting of a lone `.`, is `NaN`; otherwise the value is the integer part
plus the fractional part. -/
def parseNumRun (l : List Char) : Option ℚ :=
  let ip := l.takeWhile (fun c => c ≠ '.')
  match l.dropWhile (fun c => c ≠ '.') with
  | [] => some ((digitsVal ip : ℕ) : ℚ)
  | _ :: frac =>
    if frac.contains '.' then none
    else if ip.isEmpty && frac.isEmpty then none
    else some ((digitsVal ip : ℚ) + fracVal frac)

/-- The unary-minus test of the tokenizer: `!prev || prev.type === 'op' ||
(prev.type === 'paren' && prev.value === '(')` where `prev` is the last token
produced so far. -/
def prevAllowsUnary (tokens : List Token) : Bool :=
  match tokens.getLast? with
  | none => true
  | some (Token.op _) => true
  | some (Token.paren c) => c = '('
  | some (Token.number _) => false

/-- The tokenizer loop (`while (i < len)`), with fuel.  Each branch of the
source consumes at least one character, so fuel `length + 1` never runs out;
the fuel-exhausted result `.ok acc` is unreachable for the canonical fuel. -/
def tokenizeF : ℕ → List Char → List Token → Except EvalError (List Token)
  | _, [], acc => .ok acc
  | 0, _ :: _, acc => .ok acc
  | fuel+1, c :: cs, acc =>
    if c = '(' ∨ c = ')' then
      tokenizeF fuel cs (acc ++ [Token.paren c])
    else if c = '+' ∨ c = '*' ∨ c = '/' ∨ c = '-' then
      if c = '-' ∧ prevAllowsUnary acc then
        if cs.takeWhile isDigitDot = [] then
          tokenizeF fuel cs (acc ++ [Token.op c])
        else
          match parseNumRun (cs.takeWhile isDigitDot) with
          | none => .error .invalidNumber
          | some v =>
            tokenizeF fuel (cs.drop (cs.takeWhile isDigitDot).length)
              (acc ++ [Token.number (-v)])
      else
        tokenizeF fuel cs (acc ++ [Token.op c])
    else if isDigitDot c then
      match parseNumRun ((c :: cs).takeWhile isDigitDot) with
      | none => .error .invalidNumber
      | some v =>
        tokenizeF fuel ((c :: cs).drop ((c :: cs).takeWhile isDigitDot).length)
          (acc ++ [Token.number v])
    else .error (.invalidCharacter c)

/-- Stage 1 of `evaluateExpression`: tokenize the character list. -/
def tokenize (l : List Char) : Except EvalError (List Token) :=
  tokenizeF (l.length + 1) l []

/-- `precedence`: `+` and `-` bind at level 1, `*` and `/` at level 2. -/
def precedence (o : Char) : ℕ := if o = '+' ∨ o = '-' then 1 else 2

/-- The inner `while (ops.length)` loop run for an incoming operator of
precedence `p`: pops stack operators of precedence `> p` or `= p`, stopping at
the first non-operator entry or lower-precedence operator.  Returns the popped
tokens (in pop order, destined for the output) and the remaining stack. -/
def popOps (p : ℕ) : List Token → List Token × List Token
  | [] => ([], [])
  | t :: rest =>
    match t with
    | Token.op o =>
      if precedence o > p ∨ precedence o = p then
        let r := popOps p rest
        (t :: r.1, r.2)
      else ([], t :: rest)
    | _ => ([], t :: rest)

/-- The closing-parenthesis loop: pops stack entries to the output until an
opening parenthesis is found (and discarded); `none` models the stack running
empty, i.e. the `throw new Error('Mismatched parentheses')`. -/
def popParen : List Token → Option (List Token × List Token)
  | [] => none
  | t :: rest =>
    if t = Token.paren '(' then some ([], rest)
    else (popParen rest).map fun r => (t :: r.1, r.2)

/-- Stage 2, the shunting-yard loop over the token sequence, carrying the
output sequence and the operator stack (head = top of stack). -/
def shuntGo : List Token → List Token → List Token →
    Except EvalError (List Token × List Token)
  | [], output, ops => .ok (output, ops)
  | t :: ts, output, ops =>
    match t with
    | Token.number _ => shuntGo ts (output ++ [t]) ops
    | Token.op o =>
      let r := popOps (precedence o) ops
      shuntGo ts (output ++ r.1) (t :: r.2)
    | Token.paren c =>
      if c = '(' then shuntGo ts output (t :: ops)
      else
        match popParen ops with
        | none => .error .mismatchedParentheses
        | some r => shuntGo ts (output ++ r.1) r.2

/-- The final drain of the operator stack: any remaining parenthesis is a
mismatch; otherwise the entries are appended to the output in pop order. -/
def drainOps : List Token → Except EvalError (List Token)
  | [] => .ok []
  | t :: rest =>
    match t with
    | Token.paren _ => .error .mismatchedParentheses
    | _ =>
      match drainOps rest with
      | .error e => .error e
      | .ok l => .ok (t :: l)

/-- Stage 3, the RPN evaluation loop over the postfix sequence, carrying the
operand stack (head = top).  An operator pops the right operand `b` first and
the left operand `a` second; `/` fails on a zero right operand before
dividing. -/
def evalRPN : List Token → List ℚ → Except EvalError (List ℚ)
  | [], stack => .ok stack
  | t :: ts, stack =>
    match t with
    | Token.number v => evalRPN ts (v :: stack)
    | Token.op o =>
      match stack with
      | b :: a :: rest =>
        if o = '+' then evalRPN ts ((a + b) :: rest)
        else if o = '-' then evalRPN ts ((a - b) :: rest)
        else if o = '*' then evalRPN ts ((a * b) :: rest)
        else if o = '/' then
          if b = 0 then .error .divisionByZero
          else evalRPN ts ((a / b) :: rest)
        else .error (.unknownOperator o)
      | _ => .error .malformedExpression
    | Token.paren _ => evalRPN ts stack

/-- `evaluateExpression(expr)`: tokenize, convert to RPN, evaluate, and require
the final operand stack to hold exactly one value. -/
def evaluateExpression (expr : String) : Except EvalError ℚ := do
  let tokens ← tokenize expr.toList
  let r ← shuntGo tokens [] []
  let drained ← drainOps r.2
  let stack ← evalRPN (r.1 ++ drained) []
  match stack with
  | [v] => .ok v
  | _ => .error .malformedExpression

/-- `n` successive calls of the evaluator on the same expression string,
collecting the results in call order. -/
def evalRepeated (s : String) : ℕ → List (Except EvalError ℚ)
  | 0 => []
  | n+1 => evaluateExpression s :: evalRepeated s n

/-- Decimal digit character of `d` (for `d < 10`). -/
def dchar (d : ℕ) : Char := Char.ofNat (48 + d)

/-- Decimal rendering of a natural number, with fuel (the recursion divides by
ten, so fuel `n + 1` is provably sufficient). -/
def natDigitsF : ℕ → ℕ → List Char
  | 0, _ => []
  | f+1, n => if n < 10 then [dchar n] else natDigitsF f (n / 10) ++ [dchar (n % 10)]

/-- Decimal rendering of a natural number. -/
def natDigits (n : ℕ) : List Char := natDigitsF (n + 1) n

/-- Grammar of well-formed expression strings, stratified by precedence level:
level 0 are operands (natural-number literals, negated literals, and
parenthesized expressions), level 1 are `*`/`/` chains over operands, level 2
are `+`/`-` chains over level-1 expressions.  Each chain associates to the
left, so every well-formed expression string over these operands is the
rendering of exactly one `Expr 2`. -/
inductive Expr : ℕ → Type where
  | num (n : ℕ) : Expr 0
  | neg (n : ℕ) : Expr 0
  | paren (e : Expr 2) : Expr 0
  | atom (a : Expr 0) : Expr 1
  | mul (m : Expr 1) (a : Expr 0) : Expr 1
  | div (m : Expr 1) (a : Expr 0) : Expr 1
  | madd (m : Expr 1) : Expr 2
  | add (x : Expr 2) (m : Expr 1) : Expr 2
  | sub (x : Expr 2) (m : Expr 1) : Expr 2

/-- The expression string an `Expr` denotes (no redundant characters: operands
are rendered as bare literals, operators as single symbols). -/
def render : {l : ℕ} → Expr l → List Char
  | _, .num n => natDigits n
  | _, .neg n => '-' :: natDigits n
  | _, .paren e => '(' :: (render e ++ [')'])
  | _, .atom a => render a
  | _, .mul m a => render m ++ '*' :: render a
  | _, .div m a => render m ++ '/' :: render a
  | _, .madd m => render m
  | _, .add x m => render x ++ '+' :: render m
  | _, .sub x m => render x ++ '-' :: render m

/-- The token sequence the tokenizer produces for `render e`. -/
def toks : {l : ℕ} → Expr l → List Token
  | _, .num n => [Token.number (n : ℚ)]
  | _, .neg n => [Token.number (-(n : ℚ))]
  | _, .paren e => Token.paren '(' :: (toks e ++ [Token.paren ')'])
  | _, .atom a => toks a
  | _, .mul m a => toks m ++ Token.op '*' :: toks a
  | _, .div m a => toks m ++ Token.op '/' :: toks a
  | _, .madd m => toks m
  | _, .add x m => toks x ++ Token.op '+' :: toks m
  | _, .sub x m => toks x ++ Token.op '-' :: toks m

/-- Mathematical value of an `Expr` (with `x / 0 = 0`, the `ℚ` junk value;
evaluation of such expressions is excluded by `ndz`). -/
def denote : {l : ℕ} → Expr l → ℚ
  | _, .num n => (n : ℚ)
  | _, .neg n => -(n : ℚ)
  | _, .paren e => denote e
  | _, .atom a => denote a
  | _, .mul m a => denote m * denote a
  | _, .div m a => denote m / denote a
  | _, .madd m => denote m
  | _, .add x m => denote x + denote m
  | _, .sub x m => denote x - denote m

/-- No division in the expression has a zero right operand ("valid operands"). -/
def ndz : {l : ℕ} → Expr l → Bool
  | _, .num _ => true
  | _, .neg _ => true
  | _, .paren e => ndz e
  | _, .atom a => ndz a
  | _, .mul m a => ndz m && ndz a
  | _, .div m a => ndz m && ndz a && !(decide (denote a = 0))
  | _, .madd m => ndz m
  | _, .add x m => ndz x && ndz m
  | _, .sub x m => ndz x && ndz m

/-- The operators still pending on the shunting-yard stack immediately after
the tokens of `e` have been consumed (started from a stack this chain does not
pop into). -/
def pend : {l : ℕ} → Expr l → List Token
  | _, .num _ => []
  | _, .neg _ => []
  | _, .paren _ => []
  | _, .atom _ => []
  | _, .mul _ _ => [Token.op '*']
  | _, .div _ _ => [Token.op '/']
  | _, .madd m => pend m
  | _, .add _ m => pend m ++ [Token.op '+']
  | _, .sub _ m => pend m ++ [Token.op '-']

/-- The output the shunting-yard loop has emitted for `e` once the tokens of
`e` have been consumed (the full postfix form minus `pend e`). -/
def rpnPart : {l : ℕ} → Expr l → List Token
  | _, .num n => [Token.number (n : ℚ)]
  | _, .neg n => [Token.number (-(n : ℚ))]
  | _, .paren e => rpnPart e ++ pend e
  | _, .atom a => rpnPart a
  | _, .mul m a => rpnPart m ++ pend m ++ rpnPart a
  | _, .div m a => rpnPart m ++ pend m ++ rpnPart a
  | _, .madd m => rpnPart m
  | _, .add x m => rpnPart x ++ pend x ++ rpnPart m
  | _, .sub x m => rpnPart x ++ pend x ++ rpnPart m

/-- Full postfix (RPN) form of `e`. -/
def rpn {l : ℕ} (e : Expr l) : List Token := rpnPart e ++ pend e

/-- Minimal precedence an operator must have to belong to the pending chain of
a level-`l` expression (level 0 pends nothing, so any stack is acceptable
below it). -/
def minPrec : ℕ → ℕ
  | 0 => 3
  | 1 => 2
  | _ => 1

/-- The stack `ops` does not start with an operator that an incoming
precedence-`p` operator would pop. -/
def popStop (p : ℕ) (ops : List Token) : Prop :=
  match ops with
  | Token.op o :: _ => precedence o < p
  | _ => True

/-- Head of `rest` cannot extend a number run and is not itself the start of a
number: the character following a rendered expression in context. -/
def delimHead (rest : List Char) : Prop :=
  match rest with
  | [] => True
  | c :: _ => c = ')' ∨ c = '+' ∨ c = '-' ∨ c = '*' ∨ c = '/'

/-- ASCII lower-casing of one character (`String.prototype.toLowerCase`
restricted to ASCII, which is all the query keywords use). -/
def jsLowerChar (c : Char) : Char :=
  if 'A' ≤ c ∧ c ≤ 'Z' then Char.ofNat (c.toNat + 32) else c

/-- `query.toLowerCase()` over a character list. -/
def toLowerL (l : List Char) : List Char := l.map jsLowerChar

/-- `String.prototype.includes(pat)` over character lists. -/
def strHasSub (pat : List Char) : List Char → Bool
  | [] => pat.isEmpty
  | c :: t => pat.isPrefixOf (c :: t) || strHasSub pat t

/-- Greedy `\d+\.?\d*` starting exactly at the head of `l`: the matched
characters and the rest, or `none` if the head is not a digit. -/
def numFrom (l : List Char) : Option (List Char × List Char) :=
  match l with
  | c :: _ =>
    if c.isDigit then
      let ds := l.takeWhile Char.isDigit
      match l.dropWhile Char.isDigit with
      | '.' :: r2 => some (ds ++ '.' :: r2.takeWhile Char.isDigit, r2.dropWhile Char.isDigit)
      | r1 => some (ds, r1)
    else none
  | [] => none

/-- One attempt of the regex (dash)`?\d+\.?\d*` at the head of `l`. -/
def matchNumAt (l : List Char) : Option (List Char × List Char) :=
  match l with
  | '-' :: cs =>
    match numFrom cs with
    | some (m, rest) => some ('-' :: m, rest)
    | none => none
  | _ => numFrom l

/-- `q.matchAll` with the global regex (dash)`?\d+\.?\d*`: left-to-right non-overlapping matches, with
fuel (every match consumes at least one character). -/
def scanNumsF : ℕ → List Char → List (List Char)
  | 0, _ => []
  | _, [] => []
  | f+1, c :: cs =>
    match matchNumAt (c :: cs) with
    | some (m, rest) => m :: scanNumsF f rest
    | none => scanNumsF f cs

/-- All number-shaped substrings of `l`, in order. -/
def scanNums (l : List Char) : List (List Char) := scanNumsF l.length l

/-- JavaScript `Number` on one regex match (optional sign, digits, optional
point, digits); `none` models `NaN`, which the source filters out. -/
def jsNumOf (m : List Char) : Option ℚ :=
  match m with
  | '-' :: r => (parseNumRun r).map Neg.neg
  | _ => parseNumRun m

/-- Fraction digits of `fp < 10^10`, left-padded to width ten, with trailing
zeros removed — the fractional digits `parseFloat(v.toFixed(10)).toString()`
prints. -/
def fracDigits10 (fp : ℕ) : List Char :=
  (List.replicate (10 - (natDigits fp).length) '0' ++ natDigits fp).reverse.dropWhile
    (fun c => c = '0') |>.reverse

/-- `String(parseFloat(v.toFixed(10)).toString())` for a non-integral value:
round to ten decimal places, print, and trim trailing zeros. -/
def fmtFixed (v : ℚ) : String :=
  let n : ℤ := round (v * 10 ^ 10)
  let sign := if n < 0 then "-" else ""
  let ip := n.natAbs / 10 ^ 10
  let fp := n.natAbs % 10 ^ 10
  if fp = 0 then sign ++ toString ip
  else sign ++ toString ip ++ "." ++ String.mk (fracDigits10 fp)

/-- The result-formatting idiom of the source: integers (`Math.floor(value)
=== value`) print without decimals, other values print rounded to ten decimal
places with trailing zeros trimmed. -/
def fmtNumber (v : ℚ) : String :=
  if v.den = 1 then toString v.num else fmtFixed v

/-- The `largest` trigger: `lower.includes("largest") ||
lower.includes("largest:") || /which of the following numbers is the
largest/.test(lower)`. -/
def largestCond (lower : List Char) : Bool :=
  strHasSub "largest".toList lower || strHasSub "largest:".toList lower ||
    strHasSub "which of the following numbers is the largest".toList lower

/-- The largest-number handler: extract all numbers from the raw query, and if
any exist answer with the formatted maximum; otherwise fall through. -/
def largestAnswer (q lower : List Char) : Option String :=
  if largestCond lower then
    match (scanNums q).filterMap jsNumOf with
    | [] => none
    | n :: rest => some (fmtNumber (rest.foldl max n))
  else none

/-- JavaScript word characters (`\w` = `[A-Za-z0-9_]`, ASCII). -/
def isWordChar (c : Char) : Bool := c.isAlpha || c.isDigit || c = '_'

/-- Case-insensitive literal match of `pat` at the head of `l`, returning the
rest.  (All patterns used are nonempty lowercase literals.) -/
def stripCI : List Char → List Char → Option (List Char)
  | [], l => some l
  | _ :: _, [] => none
  | p :: ps, c :: cs => if jsLowerChar c = p then stripCI ps cs else none

/-- The `\b` after a match: end of input or a non-word character. -/
def boundaryAfter (l : List Char) : Bool :=
  match l with
  | [] => true
  | c :: _ => !isWordChar c

/-- First alternative of the regex alternation that matches at the head of `l`
with a word boundary after it (regex alternatives are tried left to right, and
greedy optional groups are flattened into longest-first alternatives). -/
def altMatch (alts : List (List Char)) (l : List Char) : Option (List Char) :=
  match alts with
  | [] => none
  | a :: rest =>
    match stripCI a l with
    | some r => if boundaryAfter r then some r else altMatch rest l
    | none => altMatch rest l

/-- `.replace(/\b(alt1|alt2|...)\b/gmi, repl)` for word-starting,
word-ending literal alternatives: scan left to right; where the preceding
character is not a word character (so `\b` holds before) and an alternative
matches, emit the replacement and continue after the match (whose last
character is a word character, so scanning resumes in word state).  Fueled;
every replacement consumes at least one character. -/
def replaceWordsF (alts : List (List Char)) (repl : Char) :
    ℕ → Bool → List Char → List Char
  | 0, _, l => l
  | _, _, [] => []
  | f+1, prevW, c :: cs =>
    if prevW then c :: replaceWordsF alts repl f (isWordChar c) cs
    else
      match altMatch alts (c :: cs) with
      | some rest => repl :: replaceWordsF alts repl f true rest
      | none => c :: replaceWordsF alts repl f (isWordChar c) cs

/-- One `.replace` pass over the whole string. -/
def replaceWords (alts : List (List Char)) (repl : Char) (l : List Char) :
    List Char :=
  replaceWordsF alts repl (l.length + 1) false l

/-- `\bplus\b|\badded to\b|\badd\b`. -/
def addAlts : List (List Char) := ["plus", "added to", "add"].map String.toList

/-- `\bminus\b|\bsubtract(?:ed)?(?: from)?\b|\bsubtracted\b`, with the greedy
optional groups flattened longest-first. -/
def subAlts : List (List Char) :=
  ["minus", "subtracted from", "subtracted", "subtract from", "subtract",
    "subtracted"].map String.toList

/-- `\btimes\b|\bmultiplied by\b|\bmultiply\b`. -/
def mulAlts : List (List Char) := ["times", "multiplied by", "multiply"].map String.toList

/-- `\bdivided by\b|\bdivide\b`. -/
def divAlts : List (List Char) := ["divided by", "divide"].map String.toList

/-- The four word-operator `.replace` calls building `preprocess`, in source
order. -/
def preprocessOps (q : List Char) : List Char :=
  replaceWords divAlts '/'
    (replaceWords mulAlts '*'
      (replaceWords subAlts '-'
        (replaceWords addAlts '+' q)))

/-- The character class `[0-9+\-*\/().\s]` of the math-candidate regex. -/
def isCandChar (c : Char) : Bool :=
  c.isDigit || c = '+' || c = '-' || c = '*' || c = '/' || c = '(' || c = ')' ||
    c = '.' || c.isWhitespace

/-- `preprocess.match(/[0-9(][0-9+\-*\/().\s]*\/)`: the leftmost substring
starting with a digit or `(` followed by the maximal run of candidate
characters. -/
def findCandidate : List Char → Option (List Char)
  | [] => none
  | c :: cs =>
    if c.isDigit || c = '(' then some (c :: cs.takeWhile isCandChar)
    else findCandidate cs

/-- `.trim()` over a character list. -/
def jsTrim (l : List Char) : List Char :=
  ((l.dropWhile Char.isWhitespace).reverse.dropWhile Char.isWhitespace).reverse

/-- `expr = match[0].trim()` followed by `expr.replace(/\s+/g, "")`. -/
def exprOf (cand : List Char) : List Char :=
  (jsTrim cand).filter (fun c => !c.isWhitespace)

/-- The character class of the validation regex `/^[0-9+\-*\/().]+$/`. -/
def isExprChar (c : Char) : Bool :=
  c.isDigit || c = '+' || c = '-' || c = '*' || c = '/' || c = '(' || c = ')' ||
    c = '.'

/-- `/^[0-9+\-*\/().]+$/.test(expr)`. -/
def validExpr (l : List Char) : Bool := !l.isEmpty && l.all isExprChar

/-- The math-detector block of `QueryProcessor`: find a candidate substring,
strip spaces, validate the character set, and `try` the evaluator.  A thrown
evaluator error is caught (`none`: fall through to the keyword handlers); a
returned value is always a finite rational in this model, so the
`Number.isFinite` guard of the source always passes and the value is
formatted. -/
def mathAnswer (pre : List Char) : Option String :=
  match findCandidate pre with
  | none => none
  | some cand =>
    if validExpr (exprOf cand) then
      match evaluateExpression (String.mk (exprOf cand)) with
      | Except.ok v => some (fmtNumber v)
      | Except.error _ => none
    else none

/-- The Shakespeare description returned for queries containing
"shakespeare" (apostrophe spelled via its character code). -/
def shakespeareText : String :=
  "William Shakespeare (26 April 1564 - 23 April 1616) was an " ++
    "English poet, playwright, and actor, widely regarded as the greatest " ++
    "writer in the English language and the world" ++
    String.mk [Char.ofNat 39] ++ "s pre-eminent dramatist."

/-- The keyword-based responses at the bottom of `QueryProcessor`, ending in
the default `return ""`. -/
def keywordAnswer (lower : List Char) : String :=
  if strHasSub "shakespeare".toList lower then shakespeareText
  else if strHasSub "gameid".toList lower then "5f34a61a"
  else if strHasSub "playerid".toList lower then "97b91e1a"
  else if strHasSub "your name".toList lower then "Rohan"
  else if strHasSub "name".toList lower then "andremildeluxe"
  else if strHasSub "my andrewid".toList lower then "andremil"
  else ""

/-- The exported `QueryProcessor(query)`: the largest-number handler, then the
math detector over the word-operator-normalized query, then the keyword
handlers.  (The `query || ""` null guard has no counterpart for Lean strings;
an empty query takes the same path as any non-matching one.) -/
def QueryProcessor (query : String) : String :=
  let q := query.toList
  let lower := toLowerL q
  match largestAnswer q lower with
  | some s => s
  | none =>
    match mathAnswer (preprocessOps q) with
    | some s => s
    | none => keywordAnswer lower

/-! ### Digit and number-rendering lemmas -/

theorem dchar_isDigit {d : ℕ} (h : d < 10) : (dchar d).isDigit = true := by
  interval_cases d <;> decide

theorem dchar_isDigitDot {d : ℕ} (h : d < 10) : isDigitDot (dchar d) = true := by
  interval_cases d <;> decide

theorem dchar_ne_dot {d : ℕ} (h : d < 10) : dchar d ≠ '.' := by
  interval_cases d <;> decide

theorem digitVal_dchar {d : ℕ} (h : d < 10) : digitVal (dchar d) = d := by
  interval_cases d <;> decide

theorem natDigitsF_mono : ∀ f g n, n < f → n < g → natDigitsF f n = natDigitsF g n := by
  intro f
  induction f with
  | zero => intro g n h; exact absurd h (Nat.not_lt_zero _)
  | succ f ih =>
    intro g n hf hg
    cases g with
    | zero => exact absurd hg (Nat.not_lt_zero _)
    | succ g =>
      simp only [natDigitsF]
      split_ifs with h
      · rfl
      · have hd : n / 10 < n := Nat.div_lt_self (by omega) (by omega)
        have h1 : n / 10 < f := by omega
        have h2 : n / 10 < g := by omega
        rw [ih g (n / 10) h1 h2]

theorem natDigitsF_ne_nil {f n : ℕ} (h : n < f) : natDigitsF f n ≠ [] := by
  cases f with
  | zero => exact absurd h (Nat.not_lt_zero _)
  | succ f =>
    simp only [natDigitsF]
    split_ifs with h10
    · simp
    · simp

theorem natDigits_ne_nil (n : ℕ) : natDigits n ≠ [] :=
  natDigitsF_ne_nil (Nat.lt_succ_self n)

theorem natDigitsF_mem : ∀ f n c, c ∈ natDigitsF f n → ∃ d, d < 10 ∧ c = dchar d := by
  intro f
  induction f with
  | zero => intro n c h; simp [natDigitsF] at h
  | succ f ih =>
    intro n c h
    simp only [natDigitsF] at h
    split_ifs at h with h10
    · simp at h
      exact ⟨n, h10, h⟩
    · rcases List.mem_append.mp h with h' | h'
      · exact ih _ _ h'
      · simp at h'
        exact ⟨n % 10, Nat.mod_lt _ (by omega), h'⟩

theorem natDigits_mem {n : ℕ} {c : Char} (h : c ∈ natDigits n) :
    ∃ d, d < 10 ∧ c = dchar d :=
  natDigitsF_mem _ _ _ h

theorem digitsVal_append_single (l : List Char) (c : Char) :
    digitsVal (l ++ [c]) = 10 * digitsVal l + digitVal c := by
  simp [digitsVal, List.foldl_append]

theorem digitsVal_natDigitsF : ∀ f n, n < f → digitsVal (natDigitsF f n) = n := by
  intro f
  induction f with
  | zero => intro n h; exact absurd h (Nat.not_lt_zero _)
  | succ f ih =>
    intro n hf
    simp only [natDigitsF]
    split_ifs with h10
    · show digitsVal [dchar n] = n
      simp [digitsVal, digitVal_dchar h10]
    · have hd : n / 10 < n := Nat.div_lt_self (by omega) (by omega)
      have h1 : n / 10 < f := by omega
      rw [digitsVal_append_single, ih (n / 10) h1,
        digitVal_dchar (Nat.mod_lt _ (by omega))]
      omega

theorem digitsVal_natDigits (n : ℕ) : digitsVal (natDigits n) = n :=
  digitsVal_natDigitsF _ _ (Nat.lt_succ_self n)

theorem takeWhile_all {p : Char → Bool} :
    ∀ l : List Char, (∀ c ∈ l, p c = true) → l.takeWhile p = l := by
  intro l h
  induction l with
  | nil => rfl
  | cons c cs ih =>
    rw [List.takeWhile_cons_of_pos (h c (by simp)), ih fun x hx => h x (by simp [hx])]

theorem dropWhile_all {p : Char → Bool} :
    ∀ l : List Char, (∀ c ∈ l, p c = true) → l.dropWhile p = [] := by
  intro l h
  induction l with
  | nil => rfl
  | cons c cs ih =>
    rw [List.dropWhile_cons_of_pos (h c (by simp)), ih fun x hx => h x (by simp [hx])]

theorem parseNumRun_natDigits (n : ℕ) : parseNumRun (natDigits n) = some ((n : ℕ) : ℚ) := by
  have hall : ∀ c ∈ natDigits n, (decide (c ≠ '.')) = true := by
    intro c hc
    obtain ⟨d, hd, rfl⟩ := natDigits_mem hc
    simpa using dchar_ne_dot hd
  simp only [parseNumRun, takeWhile_all _ hall, dropWhile_all _ hall,
    digitsVal_natDigits]

/-! ### Tokenizer fuel irrelevance: the scan consumes at least one character
per iteration, so any fuel beyond the input length gives the same result -/

theorem tokenizeF_mono : ∀ f g l acc, l.length < f → l.length < g →
    tokenizeF f l acc = tokenizeF g l acc := by
  intro f
  induction f with
  | zero => intro g l acc h _; exact absurd h (Nat.not_lt_zero _)
  | succ f ih =>
    intro g l acc hf hg
    cases l with
    | nil =>
      cases g with
      | zero => exact absurd hg (Nat.not_lt_zero _)
      | succ g => rfl
    | cons c cs =>
      cases g with
      | zero => exact absurd hg (Nat.not_lt_zero _)
      | succ g =>
        have hf' : cs.length < f := by simp only [List.length_cons] at hf; omega
        have hg' : cs.length < g := by simp only [List.length_cons] at hg; omega
        simp only [tokenizeF]
        split_ifs with h1 h2 h3 h4 h5
        · exact ih _ _ _ hf' hg'
        · exact ih _ _ _ hf' hg'
        · cases hpn : parseNumRun (cs.takeWhile isDigitDot) with
          | none => rfl
          | some v =>
            refine ih _ _ _ ?_ ?_ <;> simp only [List.length_drop] <;> omega
        · exact ih _ _ _ hf' hg'
        · cases hpn : parseNumRun ((c :: cs).takeWhile isDigitDot) with
          | none => rfl
          | some v =>
            have hk : ((c :: cs).takeWhile isDigitDot).length =
                (cs.takeWhile isDigitDot).length + 1 := by
              rw [List.takeWhile_cons_of_pos h5]
              simp
            refine ih _ _ _ ?_ ?_ <;>
              simp only [List.length_drop, List.length_cons, hk] <;> omega
        · rfl

/-! ### Tokenizer single-step lemmas -/

theorem takeWhile_append_eq {p : Char → Bool} :
    ∀ l r : List Char, (∀ c ∈ l, p c = true) → r.takeWhile p = [] →
    (l ++ r).takeWhile p = l := by
  intro l r hl hr
  induction l with
  | nil => exact hr
  | cons c cs ih =>
    rw [List.cons_append, List.takeWhile_cons_of_pos (hl c (by simp)),
      ih fun x hx => hl x (by simp [hx])]

theorem delim_takeWhile {rest : List Char} (h : delimHead rest) :
    rest.takeWhile isDigitDot = [] := by
  cases rest with
  | nil => rfl
  | cons c t =>
    rcases h with h | h | h | h | h <;> subst h <;> rfl

theorem natDigits_all_digitDot (n : ℕ) : ∀ c ∈ natDigits n, isDigitDot c = true := by
  intro c hc
  obtain ⟨d, hd, rfl⟩ := natDigits_mem hc
  exact dchar_isDigitDot hd

theorem natDigits_head_not_sym (n : ℕ) {d : Char} {ds : List Char}
    (h : natDigits n = d :: ds) :
    (¬(d = '(' ∨ d = ')')) ∧ (¬(d = '+' ∨ d = '*' ∨ d = '/' ∨ d = '-')) ∧
      isDigitDot d = true := by
  have hdm : d ∈ natDigits n := h ▸ List.mem_cons_self d ds
  obtain ⟨k, hk, rfl⟩ := natDigits_mem hdm
  refine ⟨?_, ?_, dchar_isDigitDot hk⟩ <;> interval_cases k <;> decide

theorem prevAllowsUnary_concat_op (acc : List Token) (o : Char) :
    prevAllowsUnary (acc ++ [Token.op o]) = true := by
  simp [prevAllowsUnary, List.getLast?_concat]

theorem prevAllowsUnary_concat_open (acc : List Token) :
    prevAllowsUnary (acc ++ [Token.paren '(']) = true := by
  simp [prevAllowsUnary, List.getLast?_concat]

theorem tokenizeF_step_open (f : ℕ) (cs : List Char) (acc : List Token) :
    tokenizeF (f+1) ('(' :: cs) acc = tokenizeF f cs (acc ++ [Token.paren '(']) := rfl

theorem tokenizeF_step_close (f : ℕ) (cs : List Char) (acc : List Token) :
    tokenizeF (f+1) (')' :: cs) acc = tokenizeF f cs (acc ++ [Token.paren ')']) := rfl

theorem tokenizeF_step_plus (f : ℕ) (cs : List Char) (acc : List Token) :
    tokenizeF (f+1) ('+' :: cs) acc = tokenizeF f cs (acc ++ [Token.op '+']) := rfl

theorem tokenizeF_step_star (f : ℕ) (cs : List Char) (acc : List Token) :
    tokenizeF (f+1) ('*' :: cs) acc = tokenizeF f cs (acc ++ [Token.op '*']) := rfl

theorem tokenizeF_step_slash (f : ℕ) (cs : List Char) (acc : List Token) :
    tokenizeF (f+1) ('/' :: cs) acc = tokenizeF f cs (acc ++ [Token.op '/']) := rfl

theorem tokenizeF_step_minus_bin (f : ℕ) (cs : List Char) (acc : List Token)
    (h : prevAllowsUnary acc = false) :
    tokenizeF (f+1) ('-' :: cs) acc = tokenizeF f cs (acc ++ [Token.op '-']) := by
  simp only [tokenizeF]
  rw [if_neg (by decide), if_pos (by decide), if_neg (by simp [h])]

theorem tokenizeF_step_num (f n : ℕ) (rest : List Char) (acc : List Token)
    (hrest : rest.takeWhile isDigitDot = []) :
    tokenizeF (f+1) (natDigits n ++ rest) acc =
      tokenizeF f rest (acc ++ [Token.number ((n : ℕ) : ℚ)]) := by
  obtain ⟨d, ds, hds⟩ := List.exists_cons_of_ne_nil (natDigits_ne_nil n)
  obtain ⟨hs1, hs2, hs3⟩ := natDigits_head_not_sym n hds
  have htw : ((d :: ds) ++ rest).takeWhile isDigitDot = d :: ds := by
    rw [← hds]
    exact takeWhile_append_eq _ _ (natDigits_all_digitDot n) hrest
  have hpn : parseNumRun (d :: ds) = some ((n : ℕ) : ℚ) := by
    rw [← hds]; exact parseNumRun_natDigits n
  rw [hds]
  show tokenizeF (f+1) (d :: (ds ++ rest)) acc = _
  simp only [tokenizeF]
  rw [if_neg hs1, if_neg hs2, if_pos hs3]
  rw [show (d :: (ds ++ rest)).takeWhile isDigitDot = d :: ds from htw, hpn]
  show tokenizeF f ((d :: (ds ++ rest)).drop (d :: ds).length) _ = _
  rw [show (d :: (ds ++ rest)).drop (d :: ds).length = rest from
    List.drop_left (d :: ds) rest]

theorem tokenizeF_step_negnum (f n : ℕ) (rest : List Char) (acc : List Token)
    (hrest : rest.takeWhile isDigitDot = [])
    (hprev : prevAllowsUnary acc = true) :
    tokenizeF (f+1) (('-' :: natDigits n) ++ rest) acc =
      tokenizeF f rest (acc ++ [Token.number (-((n : ℕ) : ℚ))]) := by
  have htw : (natDigits n ++ rest).takeWhile isDigitDot = natDigits n :=
    takeWhile_append_eq _ _ (natDigits_all_digitDot n) hrest
  show tokenizeF (f+1) ('-' :: (natDigits n ++ rest)) acc = _
  simp only [tokenizeF]
  rw [if_neg (by decide), if_pos (by decide), if_pos (by simp [hprev]), htw]
  rw [if_neg (natDigits_ne_nil n), parseNumRun_natDigits n]
  rw [show (natDigits n ++ rest).drop (natDigits n).length = rest from
    List.drop_left (natDigits n) rest]

/-! ### Tokenizing a rendered expression -/

theorem prevAllowsUnary_after_toks : ∀ {lv : ℕ} (e : Expr lv) (acc : List Token),
    prevAllowsUnary (acc ++ toks e) = false := by
  intro lv e
  induction e with
  | num n =>
    intro acc
    simp [toks, prevAllowsUnary, List.getLast?_concat]
  | neg n =>
    intro acc
    simp [toks, prevAllowsUnary, List.getLast?_concat]
  | paren e' ih =>
    intro acc
    have hlast : (acc ++ toks (Expr.paren e')).getLast? = some (Token.paren ')') := by
      show (acc ++ (Token.paren '(' :: (toks e' ++ [Token.paren ')']))).getLast? = _
      rw [show acc ++ (Token.paren '(' :: (toks e' ++ [Token.paren ')'])) =
        (acc ++ Token.paren '(' :: toks e') ++ [Token.paren ')'] by simp]
      exact List.getLast?_concat _
    simp [prevAllowsUnary, hlast]
  | atom a ih => exact ih
  | mul m a ihm iha =>
    intro acc
    show prevAllowsUnary (acc ++ (toks m ++ Token.op '*' :: toks a)) = false
    rw [show acc ++ (toks m ++ Token.op '*' :: toks a) =
      ((acc ++ toks m) ++ [Token.op '*']) ++ toks a by simp]
    exact iha _
  | div m a ihm iha =>
    intro acc
    show prevAllowsUnary (acc ++ (toks m ++ Token.op '/' :: toks a)) = false
    rw [show acc ++ (toks m ++ Token.op '/' :: toks a) =
      ((acc ++ toks m) ++ [Token.op '/']) ++ toks a by simp]
    exact iha _
  | madd m ih => exact ih
  | add x m ihx ihm =>
    intro acc
    show prevAllowsUnary (acc ++ (toks x ++ Token.op '+' :: toks m)) = false
    rw [show acc ++ (toks x ++ Token.op '+' :: toks m) =
      ((acc ++ toks x) ++ [Token.op '+']) ++ toks m by simp]
    exact ihm _
  | sub x m ihx ihm =>
    intro acc
    show prevAllowsUnary (acc ++ (toks x ++ Token.op '-' :: toks m)) = false
    rw [show acc ++ (toks x ++ Token.op '-' :: toks m) =
      ((acc ++ toks x) ++ [Token.op '-']) ++ toks m by simp]
    exact ihm _

theorem tok_master : ∀ {lv : ℕ} (e : Expr lv) (f : ℕ) (acc : List Token)
    (rest : List Char),
    (render e).length + rest.length < f → delimHead rest →
    prevAllowsUnary acc = true →
    tokenizeF f (render e ++ rest) acc =
      tokenizeF (rest.length + 1) rest (acc ++ toks e) := by
  intro lv e
  induction e with
  | num n =>
    intro f acc rest hf hd hp
    have h1 : 1 ≤ (natDigits n).length :=
      List.length_pos.mpr (natDigits_ne_nil n)
    have hfr : (render (Expr.num n)).length = (natDigits n).length := rfl
    cases f with
    | zero => rw [hfr] at hf; omega
    | succ f =>
      rw [show render (Expr.num n) = natDigits n from rfl,
        tokenizeF_step_num f n rest acc (delim_takeWhile hd)]
      exact tokenizeF_mono _ _ _ _ (by rw [hfr] at hf; omega) (by omega)
  | neg n =>
    intro f acc rest hf hd hp
    have h1 : 1 ≤ (natDigits n).length :=
      List.length_pos.mpr (natDigits_ne_nil n)
    have hfr : (render (Expr.neg n)).length = (natDigits n).length + 1 := by
      simp [render]
    cases f with
    | zero => omega
    | succ f =>
      rw [show render (Expr.neg n) = '-' :: natDigits n from rfl,
        tokenizeF_step_negnum f n rest acc (delim_takeWhile hd) hp]
      exact tokenizeF_mono _ _ _ _ (by rw [hfr] at hf; omega) (by omega)
  | paren e' ih =>
    intro f acc rest hf hd hp
    have hfr : (render (Expr.paren e')).length = (render e').length + 2 := by
      simp [render]
    cases f with
    | zero => omega
    | succ f =>
      rw [show render (Expr.paren e') ++ rest =
        '(' :: (render e' ++ (')' :: rest)) by simp [render],
        tokenizeF_step_open,
        ih f _ (')' :: rest) (by rw [hfr] at hf; simp; omega) (Or.inl rfl)
          (prevAllowsUnary_concat_open acc)]
      show tokenizeF (rest.length + 1 + 1) (')' :: rest) _ = _
      rw [tokenizeF_step_close]
      congr 1
      simp [toks]
  | atom a ih => exact ih
  | mul m a ihm iha =>
    intro f acc rest hf hd hp
    have hfr : (render (Expr.mul m a)).length =
        (render m).length + 1 + (render a).length := by
      simp [render]; omega
    rw [show render (Expr.mul m a) ++ rest =
      render m ++ ('*' :: (render a ++ rest)) by simp [render],
      ihm f acc ('*' :: (render a ++ rest))
        (by rw [hfr] at hf; simp; omega) (by exact Or.inr (Or.inr (Or.inr (Or.inl rfl)))) hp]
    show tokenizeF ((render a ++ rest).length + 1 + 1)
      ('*' :: (render a ++ rest)) _ = _
    rw [tokenizeF_step_star,
      iha _ _ rest (by simp) hd (prevAllowsUnary_concat_op _ '*')]
    congr 1
    simp [toks]
  | div m a ihm iha =>
    intro f acc rest hf hd hp
    have hfr : (render (Expr.div m a)).length =
        (render m).length + 1 + (render a).length := by
      simp [render]; omega
    rw [show render (Expr.div m a) ++ rest =
      render m ++ ('/' :: (render a ++ rest)) by simp [render],
      ihm f acc ('/' :: (render a ++ rest))
        (by rw [hfr] at hf; simp; omega)
        (by exact Or.inr (Or.inr (Or.inr (Or.inr rfl)))) hp]
    show tokenizeF ((render a ++ rest).length + 1 + 1)
      ('/' :: (render a ++ rest)) _ = _
    rw [tokenizeF_step_slash,
      iha _ _ rest (by simp) hd (prevAllowsUnary_concat_op _ '/')]
    congr 1
    simp [toks]
  | madd m ih => exact ih
  | add x m ihx ihm =>
    intro f acc rest hf hd hp
    have hfr : (render (Expr.add x m)).length =
        (render x).length + 1 + (render m).length := by
      simp [render]; omega
    rw [show render (Expr.add x m) ++ rest =
      render x ++ ('+' :: (render m ++ rest)) by simp [render],
      ihx f acc ('+' :: (render m ++ rest))
        (by rw [hfr] at hf; simp; omega) (Or.inr (Or.inl rfl)) hp]
    show tokenizeF ((render m ++ rest).length + 1 + 1)
      ('+' :: (render m ++ rest)) _ = _
    rw [tokenizeF_step_plus,
      ihm _ _ rest (by simp) hd (prevAllowsUnary_concat_op _ '+')]
    congr 1
    simp [toks]
  | sub x m ihx ihm =>
    intro f acc rest hf hd hp
    have hfr : (render (Expr.sub x m)).length =
        (render x).length + 1 + (render m).length := by
      simp [render]; omega
    rw [show render (Expr.sub x m) ++ rest =
      render x ++ ('-' :: (render m ++ rest)) by simp [render],
      ihx f acc ('-' :: (render m ++ rest))
        (by rw [hfr] at hf; simp; omega) (Or.inr (Or.inr (Or.inl rfl))) hp]
    show tokenizeF ((render m ++ rest).length + 1 + 1)
      ('-' :: (render m ++ rest)) _ = _
    rw [tokenizeF_step_minus_bin _ _ _ (prevAllowsUnary_after_toks x acc),
      ihm _ _ rest (by simp) hd (prevAllowsUnary_concat_op _ '-')]
    congr 1
    simp [toks]

theorem tokenize_render {lv : ℕ} (e : Expr lv) :
    tokenize (render e) = Except.ok (toks e) := by
  have h := tok_master e ((render e).length + 1) [] []
    (by simp) trivial rfl
  simpa [tokenize] using h

/-! ### Shunting-yard on the tokens of a well-formed expression -/

theorem popStop_three : ∀ ops : List Token, popStop 3 ops := by
  intro ops
  cases ops with
  | nil => trivial
  | cons t rest =>
    cases t with
    | op o =>
      show precedence o < 3
      unfold precedence
      split <;> omega
    | number v => trivial
    | paren c => trivial

theorem popStop_mono {p q : ℕ} (h : p ≤ q) :
    ∀ ops : List Token, popStop p ops → popStop q ops := by
  intro ops hs
  cases ops with
  | nil => trivial
  | cons t rest =>
    cases t with
    | op o => show precedence o < q; exact lt_of_lt_of_le hs h
    | number v => trivial
    | paren c => trivial

theorem pend_level0 : ∀ e : Expr 0, pend e = [] := by
  intro e
  cases e <;> rfl

theorem pend_spec : ∀ {lv : ℕ} (e : Expr lv) t, t ∈ pend e →
    ∃ o, t = Token.op o ∧ minPrec lv ≤ precedence o := by
  intro lv e
  induction e with
  | num n => intro t ht; simp [pend] at ht
  | neg n => intro t ht; simp [pend] at ht
  | paren e' ih => intro t ht; simp [pend] at ht
  | atom a ih => intro t ht; simp [pend] at ht
  | mul m a ihm iha =>
    intro t ht
    simp [pend] at ht
    exact ⟨'*', ht, by decide⟩
  | div m a ihm iha =>
    intro t ht
    simp [pend] at ht
    exact ⟨'/', ht, by decide⟩
  | madd m ih =>
    intro t ht
    obtain ⟨o, rfl, ho⟩ := ih t ht
    exact ⟨o, rfl, by show (1 : ℕ) ≤ precedence o; change (2 : ℕ) ≤ precedence o at ho; omega⟩
  | add x m ihx ihm =>
    intro t ht
    rcases List.mem_append.mp ht with h' | h'
    · obtain ⟨o, rfl, ho⟩ := ihm t h'
      exact ⟨o, rfl, by change (2 : ℕ) ≤ precedence o at ho; show (1 : ℕ) ≤ precedence o; omega⟩
    · simp at h'
      exact ⟨'+', h', by decide⟩
  | sub x m ihx ihm =>
    intro t ht
    rcases List.mem_append.mp ht with h' | h'
    · obtain ⟨o, rfl, ho⟩ := ihm t h'
      exact ⟨o, rfl, by change (2 : ℕ) ≤ precedence o at ho; show (1 : ℕ) ≤ precedence o; omega⟩
    · simp at h'
      exact ⟨'-', h', by decide⟩

theorem popOps_split : ∀ (pnd ops : List Token) (p : ℕ),
    (∀ t ∈ pnd, ∃ o, t = Token.op o ∧ p ≤ precedence o) → popStop p ops →
    popOps p (pnd ++ ops) = (pnd, ops) := by
  intro pnd
  induction pnd with
  | nil =>
    intro ops p _ hs
    cases ops with
    | nil => rfl
    | cons t rest =>
      cases t with
      | op o =>
        show popOps p (Token.op o :: rest) = ([], Token.op o :: rest)
        have hlt : precedence o < p := hs
        simp only [popOps]
        rw [if_neg (by omega)]
      | number v => rfl
      | paren c => rfl
  | cons t pnd' ih =>
    intro ops p hall hs
    obtain ⟨o, rfl, hp⟩ := hall t (by simp)
    show popOps p (Token.op o :: (pnd' ++ ops)) = _
    simp only [popOps]
    rw [if_pos (by omega), ih ops p (fun x hx => hall x (by simp [hx])) hs]

theorem popParen_split : ∀ (pnd ops : List Token),
    (∀ t ∈ pnd, ∃ o, t = Token.op o) →
    popParen (pnd ++ (Token.paren '(' :: ops)) = some (pnd, ops) := by
  intro pnd
  induction pnd with
  | nil =>
    intro ops _
    show popParen (Token.paren '(' :: ops) = _
    simp [popParen]
  | cons t pnd' ih =>
    intro ops hall
    obtain ⟨o, rfl⟩ := hall t (by simp)
    show popParen (Token.op o :: (pnd' ++ (Token.paren '(' :: ops))) = _
    simp only [popParen]
    rw [if_neg (by simp), ih ops fun x hx => hall x (by simp [hx])]
    rfl

theorem drainOps_all_ops : ∀ l : List Token, (∀ t ∈ l, ∃ o, t = Token.op o) →
    drainOps l = Except.ok l := by
  intro l
  induction l with
  | nil => intro _; rfl
  | cons t rest ih =>
    intro hall
    obtain ⟨o, rfl⟩ := hall t (by simp)
    show drainOps (Token.op o :: rest) = _
    simp only [drainOps]
    rw [ih fun x hx => hall x (by simp [hx])]

theorem shuntGo_step_open (ts output ops : List Token) :
    shuntGo (Token.paren '(' :: ts) output ops = shuntGo ts output (Token.paren '(' :: ops) := rfl

theorem shuntGo_step_close {ops : List Token} {r : List Token × List Token}
    (ts output : List Token) (h : popParen ops = some r) :
    shuntGo (Token.paren ')' :: ts) output ops = shuntGo ts (output ++ r.1) r.2 := by
  simp only [shuntGo]
  rw [if_neg (by decide), h]

theorem shuntGo_step_op (o : Char) (ts output ops : List Token) :
    shuntGo (Token.op o :: ts) output ops =
      shuntGo ts (output ++ (popOps (precedence o) ops).1)
        (Token.op o :: (popOps (precedence o) ops).2) := rfl

theorem shunt_master : ∀ {lv : ℕ} (e : Expr lv) (ts output ops : List Token),
    popStop (minPrec lv) ops →
    shuntGo (toks e ++ ts) output ops =
      shuntGo ts (output ++ rpnPart e) (pend e ++ ops) := by
  intro lv e
  induction e with
  | num n => intro ts output ops hs; rfl
  | neg n => intro ts output ops hs; rfl
  | paren e' ih =>
    intro ts output ops hs
    show shuntGo ((Token.paren '(' :: (toks e' ++ [Token.paren ')'])) ++ ts) output ops = _
    rw [show (Token.paren '(' :: (toks e' ++ [Token.paren ')'])) ++ ts =
      Token.paren '(' :: (toks e' ++ (Token.paren ')' :: ts)) by simp]
    rw [shuntGo_step_open, ih (Token.paren ')' :: ts) output (Token.paren '(' :: ops) trivial]
    have hpp : popParen (pend e' ++ (Token.paren '(' :: ops)) = some (pend e', ops) :=
      popParen_split _ _ fun t ht => ⟨(pend_spec e' t ht).choose, (pend_spec e' t ht).choose_spec.1⟩
    rw [shuntGo_step_close _ _ hpp]
    show shuntGo ts ((output ++ rpnPart e') ++ pend e') ops = _
    simp [rpnPart, pend, List.append_assoc]
  | atom a ih =>
    intro ts output ops hs
    have h := ih ts output ops (popStop_three ops)
    show shuntGo (toks a ++ ts) output ops = shuntGo ts (output ++ rpnPart a) ([] ++ ops)
    rw [← pend_level0 a]
    exact h
  | mul m a ihm iha =>
    intro ts output ops hs
    show shuntGo ((toks m ++ Token.op '*' :: toks a) ++ ts) output ops = _
    rw [show (toks m ++ Token.op '*' :: toks a) ++ ts =
      toks m ++ (Token.op '*' :: (toks a ++ ts)) by simp]
    rw [ihm _ _ _ hs, shuntGo_step_op]
    have hpop : popOps (precedence '*') (pend m ++ ops) = (pend m, ops) :=
      popOps_split _ _ _ (fun t ht => pend_spec m t ht) hs
    rw [hpop, iha _ _ _ (popStop_three _)]
    rw [pend_level0 a]
    show shuntGo ts (((output ++ rpnPart m) ++ pend m) ++ rpnPart a) ([] ++ (Token.op '*' :: ops)) = _
    simp [rpnPart, pend, List.append_assoc]
  | div m a ihm iha =>
    intro ts output ops hs
    show shuntGo ((toks m ++ Token.op '/' :: toks a) ++ ts) output ops = _
    rw [show (toks m ++ Token.op '/' :: toks a) ++ ts =
      toks m ++ (Token.op '/' :: (toks a ++ ts)) by simp]
    rw [ihm _ _ _ hs, shuntGo_step_op]
    have hpop : popOps (precedence '/') (pend m ++ ops) = (pend m, ops) :=
      popOps_split _ _ _ (fun t ht => pend_spec m t ht) hs
    rw [hpop, iha _ _ _ (popStop_three _)]
    rw [pend_level0 a]
    show shuntGo ts (((output ++ rpnPart m) ++ pend m) ++ rpnPart a) ([] ++ (Token.op '/' :: ops)) = _
    simp [rpnPart, pend, List.append_assoc]
  | madd m ih =>
    intro ts output ops hs
    exact ih ts output ops (popStop_mono (by decide) ops hs)
  | add x m ihx ihm =>
    intro ts output ops hs
    show shuntGo ((toks x ++ Token.op '+' :: toks m) ++ ts) output ops = _
    rw [show (toks x ++ Token.op '+' :: toks m) ++ ts =
      toks x ++ (Token.op '+' :: (toks m ++ ts)) by simp]
    rw [ihx _ _ _ hs, shuntGo_step_op]
    have hpop : popOps (precedence '+') (pend x ++ ops) = (pend x, ops) :=
      popOps_split _ _ _ (fun t ht => pend_spec x t ht) hs
    rw [hpop, ihm _ _ _ (by show precedence '+' < 2; decide)]
    show shuntGo ts (((output ++ rpnPart x) ++ pend x) ++ rpnPart m)
      (pend m ++ (Token.op '+' :: ops)) = _
    simp [rpnPart, pend, List.append_assoc]
  | sub x m ihx ihm =>
    intro ts output ops hs
    show shuntGo ((toks x ++ Token.op '-' :: toks m) ++ ts) output ops = _
    rw [show (toks x ++ Token.op '-' :: toks m) ++ ts =
      toks x ++ (Token.op '-' :: (toks m ++ ts)) by simp]
    rw [ihx _ _ _ hs, shuntGo_step_op]
    have hpop : popOps (precedence '-') (pend x ++ ops) = (pend x, ops) :=
      popOps_split _ _ _ (fun t ht => pend_spec x t ht) hs
    rw [hpop, ihm _ _ _ (by show precedence '-' < 2; decide)]
    show shuntGo ts (((output ++ rpnPart x) ++ pend x) ++ rpnPart m)
      (pend m ++ (Token.op '-' :: ops)) = _
    simp [rpnPart, pend, List.append_assoc]

theorem shunt_render (e : Expr 2) :
    shuntGo (toks e) [] [] = Except.ok (rpnPart e, pend e) := by
  have h := shunt_master e [] [] [] trivial
  simpa using h

/-! ### RPN evaluation of the postfix form -/

theorem rpn_num (n : ℕ) : rpn (Expr.num n) = [Token.number ((n : ℕ) : ℚ)] := rfl

theorem rpn_neg (n : ℕ) : rpn (Expr.neg n) = [Token.number (-((n : ℕ) : ℚ))] := rfl

theorem rpn_paren (e : Expr 2) : rpn (Expr.paren e) = rpn e := by
  simp [rpn, rpnPart, pend]

theorem rpn_atom (a : Expr 0) : rpn (Expr.atom a) = rpn a := by
  simp [rpn, rpnPart, pend, pend_level0 a]

theorem rpn_mul (m : Expr 1) (a : Expr 0) :
    rpn (Expr.mul m a) = rpn m ++ rpn a ++ [Token.op '*'] := by
  simp [rpn, rpnPart, pend, pend_level0 a, List.append_assoc]

theorem rpn_div (m : Expr 1) (a : Expr 0) :
    rpn (Expr.div m a) = rpn m ++ rpn a ++ [Token.op '/'] := by
  simp [rpn, rpnPart, pend, pend_level0 a, List.append_assoc]

theorem rpn_madd (m : Expr 1) : rpn (Expr.madd m) = rpn m := rfl

theorem rpn_add (x : Expr 2) (m : Expr 1) :
    rpn (Expr.add x m) = rpn x ++ rpn m ++ [Token.op '+'] := by
  simp [rpn, rpnPart, pend, List.append_assoc]

theorem rpn_sub (x : Expr 2) (m : Expr 1) :
    rpn (Expr.sub x m) = rpn x ++ rpn m ++ [Token.op '-'] := by
  simp [rpn, rpnPart, pend, List.append_assoc]

theorem evalRPN_step_add (ts : List Token) (b a : ℚ) (stack : List ℚ) :
    evalRPN (Token.op '+' :: ts) (b :: a :: stack) = evalRPN ts ((a + b) :: stack) := rfl

theorem evalRPN_step_sub (ts : List Token) (b a : ℚ) (stack : List ℚ) :
    evalRPN (Token.op '-' :: ts) (b :: a :: stack) = evalRPN ts ((a - b) :: stack) := rfl

theorem evalRPN_step_mul (ts : List Token) (b a : ℚ) (stack : List ℚ) :
    evalRPN (Token.op '*' :: ts) (b :: a :: stack) = evalRPN ts ((a * b) :: stack) := rfl

theorem evalRPN_step_div (ts : List Token) (b a : ℚ) (stack : List ℚ) (hb : b ≠ 0) :
    evalRPN (Token.op '/' :: ts) (b :: a :: stack) = evalRPN ts ((a / b) :: stack) := by
  simp only [evalRPN]
  rw [if_neg (by decide), if_neg (by decide), if_neg (by decide), if_pos trivial,
    if_neg hb]

theorem eval_master : ∀ {lv : ℕ} (e : Expr lv) (ts : List Token) (stack : List ℚ),
    ndz e = true →
    evalRPN (rpn e ++ ts) stack = evalRPN ts (denote e :: stack) := by
  intro lv e
  induction e with
  | num n => intro ts stack _; rfl
  | neg n => intro ts stack _; rfl
  | paren e' ih =>
    intro ts stack h
    rw [rpn_paren]
    exact ih ts stack h
  | atom a ih =>
    intro ts stack h
    rw [rpn_atom]
    exact ih ts stack h
  | mul m a ihm iha =>
    intro ts stack h
    simp only [ndz, Bool.and_eq_true] at h
    rw [rpn_mul, List.append_assoc, List.append_assoc,
      ihm _ _ h.1, iha _ _ h.2, List.singleton_append, evalRPN_step_mul]
    rfl
  | div m a ihm iha =>
    intro ts stack h
    simp only [ndz, Bool.and_eq_true, Bool.not_eq_true', decide_eq_false_iff_not] at h
    rw [rpn_div, List.append_assoc, List.append_assoc,
      ihm _ _ h.1.1, iha _ _ h.1.2, List.singleton_append,
      evalRPN_step_div _ _ _ _ h.2]
    rfl
  | madd m ih =>
    intro ts stack h
    rw [rpn_madd]
    exact ih ts stack h
  | add x m ihx ihm =>
    intro ts stack h
    simp only [ndz, Bool.and_eq_true] at h
    rw [rpn_add, List.append_assoc, List.append_assoc,
      ihx _ _ h.1, ihm _ _ h.2, List.singleton_append, evalRPN_step_add]
    rfl
  | sub x m ihx ihm =>
    intro ts stack h
    simp only [ndz, Bool.and_eq_true] at h
    rw [rpn_sub, List.append_assoc, List.append_assoc,
      ihx _ _ h.1, ihm _ _ h.2, List.singleton_append, evalRPN_step_sub]
    rfl

theorem wellformed_eval (e : Expr 2) (h : ndz e = true) :
    evaluateExpression (String.mk (render e)) = Except.ok (denote e) := by
  have ht : tokenize (render e) = Except.ok (toks e) := tokenize_render e
  have hs : shuntGo (toks e) [] [] = Except.ok (rpnPart e, pend e) := shunt_render e
  have hdrain : drainOps (pend e) = Except.ok (pend e) :=
    drainOps_all_ops _ fun t ht' =>
      ⟨(pend_spec e t ht').choose, (pend_spec e t ht').choose_spec.1⟩
  have heval : evalRPN (rpnPart e ++ pend e) [] = Except.ok [denote e] := by
    have h' := eval_master e [] [] h
    rw [show rpn e ++ [] = rpnPart e ++ pend e by simp [rpn]] at h'
    simpa using h'
  simp [evaluateExpression, Bind.bind, Except.bind, ht, hs, hdrain, heval]

/-! ### Multi-dot number runs are rejected by the NaN check -/

theorem parseNumRun_multidot (l : List Char) (h : 2 ≤ l.count '.') :
    parseNumRun l = none := by
  have hdrop : 2 ≤ (l.dropWhile (fun c => decide (c ≠ '.'))).count '.' := by
    have hsplit := List.takeWhile_append_dropWhile (fun c => decide (c ≠ '.')) l
    have htake : (l.takeWhile (fun c => decide (c ≠ '.'))).count '.' = 0 := by
      rw [List.count_eq_zero]
      intro hmem
      have := List.mem_takeWhile_imp hmem
      simp at this
    have hc := congrArg (List.count '.') hsplit
    rw [List.count_append, htake] at hc
    omega
  cases hd : l.dropWhile (fun c => decide (c ≠ '.')) with
  | nil => rw [hd] at hdrop; simp at hdrop
  | cons c frac =>
    rw [hd, List.count_cons] at hdrop
    have hfrac : '.' ∈ frac := by
      have : 0 < frac.count '.' := by
        split at hdrop <;> omega
      exact List.count_pos_iff.mp this
    have hcont : frac.contains '.' = true := List.elem_iff.mpr hfrac
    simp only [parseNumRun, hd]
    rw [if_pos hcont]

/-! ### Pure-function repetition -/

theorem evalRepeated_mem : ∀ (s : String) (n : ℕ) (r : Except EvalError ℚ),
    r ∈ evalRepeated s n → r = evaluateExpression s := by
  intro s n
  induction n with
  | zero => intro r hr; simp [evalRepeated] at hr
  | succ n ih =>
    intro r hr
    rcases List.mem_cons.mp hr with h | h
    · exact h
    · exact ih r h

/-! ### The claims -/

/-- C1: multiplication and division bind tighter than addition and
subtraction: `evaluateExpression "2+3*4"` returns 14 and
`evaluateExpression "(2+3)*4"` returns 20 (and in the parser's precedence
table `*` and `/` outrank `+` and `-`). -/
theorem evaluate_precedence :
    evaluateExpression "2+3*4" = Except.ok 14 ∧
    evaluateExpression "(2+3)*4" = Except.ok 20 ∧
    precedence '*' > precedence '+' ∧ precedence '/' > precedence '-' := by
  refine ⟨?_, ?_, by decide, by decide⟩
  · show Except.ok (((2:ℕ):ℚ) + ((3:ℕ):ℚ) * ((4:ℕ):ℚ)) = _
    norm_num
  · show Except.ok ((((2:ℕ):ℚ) + ((3:ℕ):ℚ)) * ((4:ℕ):ℚ)) = _
    norm_num

/-- C2: `evaluateExpression "7/2"` returns 3.5, `evaluateExpression "5/0"`
fails with `DivisionByZero`, and in general the RPN loop fails (never
returning a value) whenever a `/` finds the right operand 0 on top of the
operand stack. -/
theorem evaluate_division :
    evaluateExpression "7/2" = Except.ok 3.5 ∧
    evaluateExpression "5/0" = Except.error EvalError.divisionByZero ∧
    ∀ (ts : List Token) (a : ℚ) (s : List ℚ),
      evalRPN (Token.op '/' :: ts) ((0 : ℚ) :: a :: s) =
        Except.error EvalError.divisionByZero := by
  refine ⟨?_, rfl, fun ts a s => rfl⟩
  show Except.ok (((7:ℕ):ℚ) / ((2:ℕ):ℚ)) = _
  norm_num

/-- C3: unbalanced parentheses are rejected with `MismatchedParentheses`,
both for a dangling opener (`"(2+3"`, caught at the final stack drain) and a
dangling closer (`"2+3)"`, caught when the stack empties with no opener). -/
theorem evaluate_mismatched_parens :
    evaluateExpression "(2+3" = Except.error EvalError.mismatchedParentheses ∧
    evaluateExpression "2+3)" = Except.error EvalError.mismatchedParentheses :=
  ⟨rfl, rfl⟩

/-- C4: operators of equal precedence are left-associative:
`evaluateExpression "8-3-2"` returns 3 and `evaluateExpression "20/4/5"`
returns 1; in the parser a pending operator of precedence greater than or
equal to the incoming operator's is popped before the incoming operator is
pushed. -/
theorem evaluate_left_assoc :
    evaluateExpression "8-3-2" = Except.ok 3 ∧
    evaluateExpression "20/4/5" = Except.ok 1 ∧
    ∀ (o o' : Char) (rest : List Token), precedence o ≤ precedence o' →
      popOps (precedence o) (Token.op o' :: rest) =
        (Token.op o' :: (popOps (precedence o) rest).1,
          (popOps (precedence o) rest).2) := by
  refine ⟨?_, ?_, ?_⟩
  · show Except.ok ((((8:ℕ):ℚ) - ((3:ℕ):ℚ)) - ((2:ℕ):ℚ)) = _
    norm_num
  · show Except.ok ((((20:ℕ):ℚ) / ((4:ℕ):ℚ)) / ((5:ℕ):ℚ)) = _
    norm_num
  · intro o o' rest h
    simp only [popOps]
    rw [if_pos (by omega)]

/-- C4 witness: a pending `*` is popped for an incoming `-` of lower
precedence. -/
theorem evaluate_left_assoc_witness :
    popOps (precedence '-') [Token.op '*'] = ([Token.op '*'], []) := by
  have h := evaluate_left_assoc.2.2 '-' '*' [] (by decide)
  simpa using h

/-- C5 counterexample: the claim says a run with several decimal points such
as `"1.2.3"` is silently accepted by the tokenizer as a single `Number`
token; in fact `Number("1.2.3")` is `NaN` and the tokenizer's NaN check
throws `InvalidNumber`. -/
theorem tokenize_multidot_counterexample :
    tokenize "1.2.3".toList = Except.error EvalError.invalidNumber := rfl

/-- C5 (amended): a digit-and-dot run containing more than one decimal point
is rejected at tokenize time with `InvalidNumber` (the `Number()` call yields
`NaN`, which the tokenizer checks), rather than being accepted as a single
`Number` token. -/
theorem tokenize_multidot_invalidNumber :
    tokenize "1.2.3".toList = Except.error EvalError.invalidNumber ∧
    evaluateExpression "1.2.3" = Except.error EvalError.invalidNumber ∧
    ∀ l : List Char, 2 ≤ l.count '.' → parseNumRun l = none :=
  ⟨rfl, rfl, parseNumRun_multidot⟩

/-- C5 witness: the multi-dot run of the counterexample indeed parses to
`NaN`. -/
theorem tokenize_multidot_invalidNumber_witness :
    parseNumRun "1.2.3".toList = none :=
  tokenize_multidot_invalidNumber.2.2 "1.2.3".toList (by decide)

/-- C6: a `-` directly before `(` is tokenized as a standalone binary
operator token (the sign-folding lookahead finds no digits), and evaluating
`"-(3+5)"` then fails with `MalformedExpression` (the `-` finds only one
operand), rather than computing unary negation of the group. -/
theorem evaluate_minus_before_paren :
    tokenize "-(3+5)".toList = Except.ok [Token.op '-', Token.paren '(',
      Token.number 3, Token.op '+', Token.number 5, Token.paren ')'] ∧
    evaluateExpression "-(3+5)" = Except.error EvalError.malformedExpression := by
  constructor
  · show Except.ok [Token.op '-', Token.paren '(', Token.number ((3:ℕ):ℚ),
      Token.op '+', Token.number ((5:ℕ):ℚ), Token.paren ')'] = _
    norm_num
  · rfl

/-- C7: a `-` at the start of the input or after an operator or opening
parenthesis is folded together with the following digit run into one negative
`Number` token; `evaluateExpression "5-12"` returns -7 and
`evaluateExpression "-3+5"` returns 2. -/
theorem tokenize_unary_minus_fold :
    evaluateExpression "5-12" = Except.ok (-7) ∧
    evaluateExpression "-3+5" = Except.ok 2 ∧
    ∀ (f : ℕ) (acc : List Token) (cs : List Char) (v : ℚ),
      prevAllowsUnary acc = true → cs.takeWhile isDigitDot ≠ [] →
      parseNumRun (cs.takeWhile isDigitDot) = some v →
      tokenizeF (f+1) ('-' :: cs) acc =
        tokenizeF f (cs.drop (cs.takeWhile isDigitDot).length)
          (acc ++ [Token.number (-v)]) := by
  refine ⟨?_, ?_, ?_⟩
  · show Except.ok (((5:ℕ):ℚ) - ((12:ℕ):ℚ)) = _
    norm_num
  · show Except.ok (-((3:ℕ):ℚ) + ((5:ℕ):ℚ)) = _
    norm_num
  · intro f acc cs v hprev hne hparse
    simp only [tokenizeF]
    rw [if_neg (by decide), if_pos (by decide), if_pos (by simp [hprev]), if_neg hne,
      hparse]

/-- C7 witness: the fold applied to the input `"-3+5"` with an empty token
list (start of input). -/
theorem tokenize_unary_minus_fold_witness :
    tokenizeF 4 ('-' :: "3+5".toList) [] =
      tokenizeF 3 ("3+5".toList.drop ("3+5".toList.takeWhile isDigitDot).length)
        ([] ++ [Token.number (-((3:ℕ):ℚ))]) :=
  tokenize_unary_minus_fold.2.2 3 [] "3+5".toList ((3:ℕ):ℚ) rfl (by decide) rfl

/-- Idealized pipeline correctness (a development theorem, not a claim): for
every expression of the grammar `Expr` (arbitrary nesting of parentheses and
`+ - * /` chains over signed integer literals) whose divisions all have
nonzero right operands, evaluation succeeds with the expression's
mathematical value, and the tokenizer loop's progress is explicit (any fuel
beyond the input length yields the same result).  This is a statement about
the `ℚ` idealization only: the grammar's operands do not include decimal
literals, and real JavaScript `Number()` overflows to `Infinity` on literals
beyond about `1.8e308`, float behavior that the `ℚ` token model cannot
express. -/
theorem evaluate_wellformed_ok :
    (∀ (f : ℕ) (l : List Char), l.length < f → tokenizeF f l [] = tokenize l) ∧
    ∀ e : Expr 2, ndz e = true →
      evaluateExpression (String.mk (render e)) = Except.ok (denote e) := by
  constructor
  · intro f l h
    exact tokenizeF_mono f (l.length + 1) l [] h (by omega)
  · exact wellformed_eval

/-- A sample well-formed expression: `2+3*4`. -/
def sampleExpr : Expr 2 :=
  Expr.add (Expr.madd (Expr.atom (Expr.num 2)))
    (Expr.mul (Expr.atom (Expr.num 3)) (Expr.num 4))

/-- The idealized correctness theorem applied to the concrete expression
`2+3*4`. -/
theorem evaluate_wellformed_ok_witness :
    String.mk (render sampleExpr) = "2+3*4" ∧
    tokenizeF 6 "2+3*4".toList [] = tokenize "2+3*4".toList ∧
    evaluateExpression (String.mk (render sampleExpr)) =
      Except.ok (denote sampleExpr) :=
  ⟨rfl, evaluate_wellformed_ok.1 6 "2+3*4".toList (by decide),
    evaluate_wellformed_ok.2 sampleExpr rfl⟩

/-- C9: evaluation is a pure, deterministic function of the expression
string: every result in a sequence of repeated evaluations of the same
string equals the single evaluation's result (no state is retained across
calls — all evaluator state is local to `evaluateExpression`). -/
theorem evaluate_pure_idempotent :
    ∀ (s : String) (n : ℕ) (r : Except EvalError ℚ),
      r ∈ evalRepeated s n → r = evaluateExpression s :=
  evalRepeated_mem

/-- C9 witness: three repeated evaluations of `"5/0"` all yield the same
`DivisionByZero` failure. -/
theorem evaluate_pure_idempotent_witness :
    Except.error EvalError.divisionByZero = evaluateExpression "5/0" :=
  evaluate_pure_idempotent "5/0" 3 (Except.error EvalError.divisionByZero)
    (List.mem_cons_self _ _)

/-- C10: `QueryProcessor` always returns a string and never propagates an
evaluator error: whenever the extracted math candidate evaluates to an error,
the math branch yields nothing (the `catch`); when neither the largest-number
branch nor the math branch produces an answer, control falls through to the
keyword handlers; when no keyword matches either, the result is the empty
string — in particular on the empty query. -/
theorem queryProcessor_total_default :
    (∀ (pre cand : List Char) (e : EvalError),
      findCandidate pre = some cand →
      evaluateExpression (String.mk (exprOf cand)) = Except.error e →
      mathAnswer pre = none) ∧
    (∀ q : String,
      largestAnswer q.toList (toLowerL q.toList) = none →
      mathAnswer (preprocessOps q.toList) = none →
      QueryProcessor q = keywordAnswer (toLowerL q.toList)) ∧
    (∀ lower : List Char,
      strHasSub "shakespeare".toList lower = false →
      strHasSub "gameid".toList lower = false →
      strHasSub "playerid".toList lower = false →
      strHasSub "your name".toList lower = false →
      strHasSub "name".toList lower = false →
      strHasSub "my andrewid".toList lower = false →
      keywordAnswer lower = "") ∧
    QueryProcessor "" = "" := by
  refine ⟨?_, ?_, ?_, rfl⟩
  · intro pre cand e hf he
    simp only [mathAnswer, hf]
    by_cases hv : validExpr (exprOf cand) = true
    · rw [if_pos hv, he]
    · rw [if_neg hv]
  · intro q h1 h2
    simp only [QueryProcessor, h1, h2]
  · intro lower h1 h2 h3 h4 h5 h6
    simp only [keywordAnswer, h1, h2, h3, h4, h5, h6, Bool.false_eq_true,
      if_false]

/-- C10 witness: on the query `"(2+3"` the evaluator fails with mismatched
parentheses, the error is caught, no keyword matches, and the empty string is
returned. -/
theorem queryProcessor_total_default_witness :
    mathAnswer (preprocessOps "(2+3".toList) = none ∧ QueryProcessor "(2+3" = "" := by
  have h1 : mathAnswer (preprocessOps "(2+3".toList) = none :=
    queryProcessor_total_default.1 (preprocessOps "(2+3".toList) "(2+3".toList
      EvalError.mismatchedParentheses rfl rfl
  refine ⟨h1, ?_⟩
  have h2 := queryProcessor_total_default.2.1 "(2+3" rfl h1
  rw [h2]
  exact queryProcessor_total_default.2.2.1 _ rfl rfl rfl rfl rfl rfl
